import Mathlib

/-!
Shallow embedding of `src/ObjectPool.hpp` (class `tab::ObjectPool<T, BlockCap>`).

The C++ pool is a singly linked list of `MemoryBlock`s (head = most recently
added).  Each block holds `BlockCap` units; a unit is a struct
`{ unit_index_t next; byte mem[ObjectSize] }`.  A block keeps `first` (index of
the head of its intrusive free list, sentinel `BlockCap` when full) and `used`
(number of occupied units).

Addresses are modelled as natural numbers (byte offsets).  `new MemoryBlock` is
modelled by a bump allocator (`Pool.nextBase`): each fresh block receives a
range of addresses disjoint from every block allocated so far, which is the
only property of the C++ heap that `release`'s address-containment scan relies
on.  A unit with index `i` in a block whose units array starts at address
`base` occupies bytes `[base + i * unitSz, base + (i+1) * unitSz)`; the object
storage `mem` starts `idxSz` bytes in, where `idxSz` models
`sizeof(unit_index_t)` and `unitSz = idxSz + objSz` models `sizeof` of the unit
struct.  The Boolean `occupied` field of a slot is ghost state recording
whether a live object currently sits in the slot (set by placement-new in
`get`, cleared by the destructor call in `release`); it has no bearing on the
computations, which mirror the C++ exactly.
-/

namespace ObjectPool

/-- The compile-time parameters of the template: `BlockCap`, `sizeof(T)` and
`sizeof(unit_index_t)`. -/
structure Config where
  Cap : Nat
  objSz : Nat
  idxSz : Nat
deriving DecidableEq

/-- `sizeof` of one unit struct `{ unit_index_t next; byte mem[ObjectSize] }`
(the `mem` array is a byte array, so it sits directly after the index field). -/
def unitSz (cfg : Config) : Nat :=
  cfg.idxSz + cfg.objSz

/-- Sanity conditions on the template parameters: at least one slot per block,
a non-empty object type, and a non-empty index type. -/
def Config.OK (cfg : Config) : Prop :=
  0 < cfg.Cap ∧ 0 < cfg.objSz ∧ 0 < cfg.idxSz

instance (cfg : Config) : Decidable cfg.OK := by
  unfold Config.OK
  infer_instance

/-- One unit of a block: the free-list link field `next` plus ghost occupancy
of the `mem` storage. -/
structure Slot where
  link : Nat
  occupied : Bool
deriving DecidableEq

/-- `MemoryBlock`: `base` is the address of `units[0]` (the start of the
units array), `first` is the free-list head index, `used` the occupancy
count. -/
structure MemoryBlock where
  base : Nat
  first : Nat
  used : Nat
  units : List Slot
deriving DecidableEq

/-- The pool: `blocks` is the singly linked list hanging off `first_`
(head of the list = `first_`), `total_block` mirrors `total_block_`, and
`nextBase` is the bump-allocator frontier used to model `new MemoryBlock`. -/
structure Pool where
  blocks : List MemoryBlock
  total_block : Nat
  nextBase : Nat
deriving DecidableEq

/-- The two error kinds of the spec: `UnavailableBlockCountException` is
`InvalidBlockCount`, `UnavailableMemoryException` is `UnknownPointer`. -/
inductive Err where
  | InvalidBlockCount
  | UnknownPointer
deriving DecidableEq

/-- Distance between the `units` bases of two consecutively allocated blocks:
the units array itself plus a positive gap (block header `next`/`first`/`used`
and allocator metadata), so distinct blocks occupy disjoint address ranges. -/
def blockStride (cfg : Config) : Nat :=
  cfg.Cap * unitSz cfg + 1

/-- A freshly constructed `MemoryBlock` at address `base`: `first = 0`,
`used = 0`, and the loop `for(j = 1; j <= BlockCap; ++j) data->next = j;`
pre-links the free list `0 → 1 → … → Cap-1 → Cap`. -/
def newBlock (cfg : Config) (base : Nat) : MemoryBlock :=
  { base := base
    first := 0
    used := 0
    units := (List.range cfg.Cap).map (fun i => ⟨i + 1, false⟩) }

/-- The allocation loop of `addBlock`: prepend `n` fresh blocks one at a time
(each new block becomes the new head), bumping the allocator. -/
def addBlocksAux (cfg : Config) : Nat → List MemoryBlock → Nat → List MemoryBlock × Nat
  | 0, bs, nb => (bs, nb)
  | Nat.succ k, bs, nb => addBlocksAux cfg k (newBlock cfg nb :: bs) (nb + blockStride cfg)

/-- The mutation performed by `addBlock` when `n_block > 0`
(also reached from `get` when a new block is needed). -/
def addBlockN (cfg : Config) (n : Nat) (p : Pool) : Pool :=
  { blocks := (addBlocksAux cfg n p.blocks p.nextBase).1
    total_block := p.total_block + n
    nextBase := (addBlocksAux cfg n p.blocks p.nextBase).2 }

/-- `ObjectPool::addBlock(size_t n_block)`: throws
`UnavailableBlockCountException` when `n_block == 0`, otherwise prepends
`n_block` fresh blocks and adds `n_block` to `total_block_`. -/
def addBlock (cfg : Config) (n : Nat) (p : Pool) : Except Err Pool :=
  if n = 0 then .error .InvalidBlockCount
  else .ok (addBlockN cfg n p)

/-- `ObjectPool::ObjectPool(size_t n_block)`: initializes `first_ = nullptr`,
`total_block_ = 0`, then calls `addBlock(n_block)`.  `base0` is the address at
which the model's bump allocator starts. -/
def mkPool (cfg : Config) (base0 : Nat) (n : Nat) : Except Err Pool :=
  addBlock cfg n { blocks := [], total_block := 0, nextBase := base0 }

/-- The pool produced by the one-argument constructor with `n_block = 1`
(also the default constructor): a single fresh block. -/
def freshPool (cfg : Config) (base0 : Nat) : Pool :=
  addBlockN cfg 1 { blocks := [], total_block := 0, nextBase := base0 }

/-- `ObjectPool::capacity()`: `total_block_ * BlockCap`. -/
def capacity (cfg : Config) (p : Pool) : Nat :=
  p.total_block * cfg.Cap

/-- The scanning loop of `removeBlock` over the successors of the head block
(`ptr->next`): removes empty blocks until `k` have been removed or the list is
exhausted; on removal the scan stays at the same predecessor.  `k` is the
remaining budget (`n_block - ret`); the loop breaks exactly when the budget
reaches zero (C++: `if(ret == n_block) break;`).  Returns the surviving tail
and the number removed. -/
def removeFromTail : Nat → List MemoryBlock → List MemoryBlock × Nat
  | _, [] => ([], 0)
  | k, b :: rest =>
    if b.used = 0 then
      if k = 1 then (rest, 1)
      else
        let r := removeFromTail (k - 1) rest
        (r.1, r.2 + 1)
    else
      let r := removeFromTail k rest
      (b :: r.1, r.2)

/-- `ObjectPool::removeBlock(size_t n_block)`: throws on `n_block == 0`;
otherwise, if the pool is non-empty, removes empty non-head blocks walking
from the head (head checked last), then removes the head itself if it is empty
and the budget is not yet exhausted.  Returns the new pool and the number of
blocks actually removed. -/
def removeBlock (cfg : Config) (n : Nat) (p : Pool) : Except Err (Pool × Nat) :=
  if n = 0 then .error .InvalidBlockCount
  else if p.total_block = 0 then .ok (p, 0)
  else
    match p.blocks with
    | [] => .ok (p, 0)
    | h :: t =>
      if h.used = 0 ∧ (removeFromTail n t).2 < n then
        .ok (⟨(removeFromTail n t).1,
              p.total_block - ((removeFromTail n t).2 + 1), p.nextBase⟩,
             (removeFromTail n t).2 + 1)
      else
        .ok (⟨h :: (removeFromTail n t).1,
              p.total_block - (removeFromTail n t).2, p.nextBase⟩,
             (removeFromTail n t).2)

/-- `ObjectPool::resize(size_t n_block)`: no-op at the current count, grows
via `addBlock`, shrinks via `removeBlock`; returns `total_block_` after the
operation. -/
def resize (cfg : Config) (n : Nat) (p : Pool) : Except Err (Pool × Nat) :=
  if n = p.total_block then .ok (p, p.total_block)
  else if p.total_block < n then
    match addBlock cfg (n - p.total_block) p with
    | .ok q => .ok (q, q.total_block)
    | .error e => .error e
  else
    match removeBlock cfg (p.total_block - n) p with
    | .ok r => .ok (r.1, r.1.total_block)
    | .error e => .error e

/-- Address of the object storage (`units[i].mem`) of slot `i` of block `b`:
the handle `get` returns for that slot and the pointer `release` receives. -/
def slotAddr (cfg : Config) (b : MemoryBlock) (i : Nat) : Nat :=
  b.base + i * unitSz cfg + cfg.idxSz

/-- The tail of `get` once a non-full block `b` has been selected:
`++blk->used; new(blk->units[blk->first].mem) T(args...);
blk->first = blk->units[blk->first].next;`.  Returns the updated block and the
address handed out. -/
def popSlot (cfg : Config) (b : MemoryBlock) : MemoryBlock × Nat :=
  let i := b.first
  let s := b.units.getD i ⟨0, false⟩
  ({ b with
      used := b.used + 1
      first := s.link
      units := b.units.set i ⟨s.link, true⟩ },
   slotAddr cfg b i)

/-- `ObjectPool::get(...)`: add a block if the pool is empty; scan from the
head for the first block with `used != BlockCap`; if the scan falls off the
end, add one block and use the new head; pop the selected block's free-list
head.  Returns the new pool state and the address of the constructed object. -/
def get (cfg : Config) (p : Pool) : Pool × Nat :=
  let p0 := if p.blocks.isEmpty then addBlockN cfg 1 p else p
  match List.findIdx? (fun b => b.used != cfg.Cap) p0.blocks with
  | some j =>
    let b := p0.blocks.getD j (newBlock cfg 0)
    let r := popSlot cfg b
    ({ p0 with blocks := p0.blocks.set j r.1 }, r.2)
  | none =>
    let p1 := addBlockN cfg 1 p0
    match p1.blocks with
    | [] => (p1, 0)
    | b :: rest =>
      let r := popSlot cfg b
      ({ p1 with blocks := r.1 :: rest }, r.2)

/-- `k` successive calls to `get` (discarding the returned handles). -/
def iterGet (cfg : Config) : Nat → Pool → Pool
  | 0, p => p
  | Nat.succ k, p => (get cfg (iterGet cfg k p)).1

/-- The containment test of `release`:
`blk->units < ptr && ptr < blk->units + BlockCap` — note the STRICT lower
bound: the address of `units[0]` itself fails the test.  The upper bound
`blk->units + BlockCap` is unit-struct pointer arithmetic, i.e. the first byte
past `units[BlockCap - 1]`. -/
def codeInRange (cfg : Config) (b : MemoryBlock) (ptr : Nat) : Bool :=
  decide (b.base < ptr) && decide (ptr < b.base + cfg.Cap * unitSz cfg)

/-- The slot range as the spec words it in the `release` step
("exact byte bounds: first byte of slot 0 through, exclusive, the first byte
past slot `Capacity - 1`"): INCLUSIVE lower bound.  Kept separate from
`codeInRange` (translated from the source) to compare the two. -/
def specInRange (cfg : Config) (b : MemoryBlock) (ptr : Nat) : Bool :=
  decide (b.base ≤ ptr) && decide (ptr < b.base + cfg.Cap * unitSz cfg)

/-- The update `release` performs on the owning block once the offset has been
computed as slot index `i`: `--used`, `units[i].next = first`, `first = i`,
destructor call (ghost `occupied := false`). -/
def relUpd (cfg : Config) (b : MemoryBlock) (i : Nat) : MemoryBlock :=
  { b with
      used := b.used - 1
      first := i
      units := b.units.set i ⟨b.first, false⟩ }

/-- The block-list scan of `release`: find the first block whose range
contains `ptr` (per `codeInRange`), compute
`offset = ((byte*)ptr - sizeof(unit_index_t) - (byte*)units) / sizeof(unit)`
and apply `relUpd`; `none` when no block contains `ptr`. -/
def releaseGo (cfg : Config) (ptr : Nat) : List MemoryBlock → Option (List MemoryBlock)
  | [] => none
  | b :: rest =>
    if codeInRange cfg b ptr then
      some (relUpd cfg b ((ptr - cfg.idxSz - b.base) / unitSz cfg) :: rest)
    else
      (releaseGo cfg ptr rest).map (fun u => b :: u)

/-- `ObjectPool::release(void* ptr)`: scan the block list; throw
`UnavailableMemoryException` when no block's range contains `ptr`. -/
def release (cfg : Config) (ptr : Nat) (p : Pool) : Except Err Pool :=
  match releaseGo cfg ptr p.blocks with
  | some bs => .ok { p with blocks := bs }
  | none => .error .UnknownPointer

/-- `ObjectPool(ObjectPool&& op) { this->swap(op); }`.  The move constructor
swaps `first_`/`total_block_` with the destination's members, which are NOT
initialized before the swap; `g` models the indeterminate values those members
happen to hold.  Result: (the new pool, the moved-from source). -/
def moveCtor (g a : Pool) : Pool × Pool :=
  ({ blocks := a.blocks, total_block := a.total_block, nextBase := a.nextBase },
   { blocks := g.blocks, total_block := g.total_block, nextBase := a.nextBase })

/-- Walk the free list of `units` starting at index `i`, with fuel: stop at
any index `≥ Cap` (the sentinel is `Cap`). -/
def freeListGo (cfg : Config) (units : List Slot) : Nat → Nat → List Nat
  | 0, _ => []
  | Nat.succ fuel, i =>
    if i < cfg.Cap then i :: freeListGo cfg units fuel ((units.getD i ⟨0, false⟩).link)
    else []

/-- The free list of a block: the indices reachable from `first` following
the slots' link fields (fuel `Cap` suffices for any duplicate-free chain). -/
def freeList (cfg : Config) (b : MemoryBlock) : List Nat :=
  freeListGo cfg b.units cfg.Cap b.first

/-- The free-list chain of a block, as a relation: `IsChain cfg units i fl`
says that starting at index `i` and following the slots' link fields one
passes exactly through the indices of `fl` and ends at the sentinel `Cap`. -/
inductive IsChain (cfg : Config) (units : List Slot) : Nat → List Nat → Prop where
  | nil : IsChain cfg units cfg.Cap []
  | cons {i : Nat} {fl : List Nat} :
      i < cfg.Cap →
      IsChain cfg units ((units.getD i ⟨0, false⟩).link) fl →
      IsChain cfg units i (i :: fl)

/-- Well-formedness of one block: full-length units array, and a
duplicate-free free-list chain of length `Cap - used` whose members are all
unoccupied. -/
def BlockWF (cfg : Config) (b : MemoryBlock) : Prop :=
  b.units.length = cfg.Cap ∧
  ∃ fl, IsChain cfg b.units b.first fl ∧ fl.Nodup ∧
    fl.length + b.used = cfg.Cap ∧
    ∀ i ∈ fl, (b.units.getD i ⟨0, false⟩).occupied = false

/-- Well-formedness of a pool: consistent block count, blocks laid out at
strictly descending, pairwise disjoint address ranges all below the allocator
frontier, and every block well-formed. -/
def PoolWF (cfg : Config) (p : Pool) : Prop :=
  p.total_block = p.blocks.length ∧
  p.blocks.Pairwise (fun b c => c.base + cfg.Cap * unitSz cfg ≤ b.base) ∧
  (∀ b ∈ p.blocks, b.base + cfg.Cap * unitSz cfg ≤ p.nextBase) ∧
  (∀ b ∈ p.blocks, BlockWF cfg b)

/-- `h` is the address of a currently live object of pool `p`: the handle of
a prior `get` that has not yet been released (the precondition of
`release`). -/
def LiveHandle (cfg : Config) (p : Pool) (h : Nat) : Prop :=
  ∃ (j : Nat) (b : MemoryBlock) (i : Nat), p.blocks[j]? = some b ∧ i < cfg.Cap ∧
    (b.units.getD i ⟨0, false⟩).occupied = true ∧ h = slotAddr cfg b i

/-- The pool states reachable by the public operations with their
preconditions met: construction, `addBlock`, `removeBlock`, `resize`, `get`,
and `release` of a live handle. -/
inductive Reach (cfg : Config) : Pool → Prop where
  | init (base0 n : Nat) (p : Pool) :
      mkPool cfg base0 n = .ok p → Reach cfg p
  | addB (p : Pool) (n : Nat) (q : Pool) :
      Reach cfg p → addBlock cfg n p = .ok q → Reach cfg q
  | remB (p : Pool) (n : Nat) (r : Pool × Nat) :
      Reach cfg p → removeBlock cfg n p = .ok r → Reach cfg r.1
  | reszB (p : Pool) (n : Nat) (r : Pool × Nat) :
      Reach cfg p → resize cfg n p = .ok r → Reach cfg r.1
  | getS (p : Pool) :
      Reach cfg p → Reach cfg (get cfg p).1
  | relS (p : Pool) (h : Nat) (q : Pool) :
      Reach cfg p → LiveHandle cfg p h → release cfg h p = .ok q → Reach cfg q

/-- The single block of a fresh one-block pool after `k ≤ Cap` calls to
`get`: `first = used = k`, slots `0 … k-1` occupied, links untouched. -/
def blkK (cfg : Config) (base k : Nat) : MemoryBlock :=
  { base := base
    first := k
    used := k
    units := (List.range cfg.Cap).map (fun i => ⟨i + 1, decide (i < k)⟩) }

/-- A small concrete instantiation used in witnesses: `BlockCap = 2`,
one-byte objects, one-byte index fields. -/
def cfgW : Config :=
  ⟨2, 1, 1⟩

/-- Concrete witness pool: a fresh one-block pool at base 100 after one
`get` (slot 0 of its only block is live, handle address 101). -/
def pW : Pool :=
  (get cfgW (freshPool cfgW 100)).1

/-- The single block of `pW`. -/
def bW : MemoryBlock :=
  pW.blocks.getD 0 (newBlock cfgW 0)

/-- A concrete value for the indeterminate contents of the uninitialized
members `first_` / `total_block_` of a move-constructed pool before its
`swap(op)` runs. -/
def garbageW : Pool :=
  { blocks := [newBlock cfgW 999], total_block := 7, nextBase := 0 }

/- ------------------------------------------------------------------ -/
/- Theorems                                                           -/
/- ------------------------------------------------------------------ -/

theorem addBlockN_total (cfg : Config) (n : Nat) (p : Pool) :
    (addBlockN cfg n p).total_block = p.total_block + n :=
  rfl

theorem addBlock_ok (cfg : Config) (n : Nat) (p q : Pool)
    (h : addBlock cfg n p = .ok q) : q = addBlockN cfg n p ∧ n ≠ 0 := by
  unfold addBlock at h
  by_cases hn : n = 0
  · rw [if_pos hn] at h
    exact absurd h (by simp)
  · rw [if_neg hn] at h
    exact ⟨(Except.ok.injEq _ _ ▸ h.symm : _), hn⟩

/-- C6: `capacity()` always returns `total_blocks * BlockCapacity` with no
side effects: after constructing a pool with `n` blocks it returns
`n * BlockCapacity`, and after a further `addBlock(k)` with `k > 0` it
returns `(n + k) * BlockCapacity`. -/
theorem capacity_spec (cfg : Config) (b0 n k : Nat) (p1 p2 : Pool)
    (hn : 0 < n) (hk : 0 < k)
    (h1 : mkPool cfg b0 n = .ok p1) (h2 : addBlock cfg k p1 = .ok p2) :
    capacity cfg p1 = n * cfg.Cap ∧ capacity cfg p2 = (n + k) * cfg.Cap ∧
    ∀ q : Pool, capacity cfg q = q.total_block * cfg.Cap := by
  obtain ⟨rfl, -⟩ := addBlock_ok cfg n _ p1 h1
  obtain ⟨rfl, -⟩ := addBlock_ok cfg k _ p2 h2
  refine ⟨?_, ?_, fun q => rfl⟩
  · simp [capacity, addBlockN_total]
  · simp [capacity, addBlockN_total, Nat.add_mul]

theorem capacity_spec_witness :
    capacity cfgW (freshPool cfgW 0) = 1 * cfgW.Cap ∧
    capacity cfgW (addBlockN cfgW 2 (freshPool cfgW 0)) = (1 + 2) * cfgW.Cap := by
  have h := capacity_spec cfgW 0 1 2 (freshPool cfgW 0)
    (addBlockN cfgW 2 (freshPool cfgW 0)) (by decide) (by decide) rfl rfl
  exact ⟨h.1, h.2.1⟩

/-- C9: `addBlock(0)` and `removeBlock(0)` each raise `InvalidBlockCount`
(throwing before any mutation, so the pool is unchanged); for every `n > 0`,
`addBlock(n)` does not raise, and `removeBlock(n)` does not raise either, even
when fewer than `n` blocks can be removed. -/
theorem zero_count_errors (cfg : Config) (p : Pool) (n : Nat) (hn : 0 < n) :
    addBlock cfg 0 p = .error .InvalidBlockCount ∧
    removeBlock cfg 0 p = .error .InvalidBlockCount ∧
    (∃ q, addBlock cfg n p = .ok q) ∧
    (∃ r, removeBlock cfg n p = .ok r) := by
  refine ⟨by simp [addBlock], by simp [removeBlock], ⟨addBlockN cfg n p, ?_⟩, ?_⟩
  · simp [addBlock, Nat.pos_iff_ne_zero.mp hn]
  · unfold removeBlock
    rw [if_neg (Nat.pos_iff_ne_zero.mp hn)]
    by_cases h0 : p.total_block = 0
    · rw [if_pos h0]; exact ⟨_, rfl⟩
    · rw [if_neg h0]
      cases p.blocks with
      | nil => exact ⟨_, rfl⟩
      | cons h t =>
        dsimp only
        split
        · exact ⟨_, rfl⟩
        · exact ⟨_, rfl⟩

theorem zero_count_errors_witness :
    addBlock cfgW 0 (freshPool cfgW 0) = .error .InvalidBlockCount ∧
    removeBlock cfgW 0 (freshPool cfgW 0) = .error .InvalidBlockCount ∧
    (∃ q, addBlock cfgW 3 (freshPool cfgW 0) = .ok q) ∧
    (∃ r, removeBlock cfgW 3 (freshPool cfgW 0) = .ok r) :=
  zero_count_errors cfgW (freshPool cfgW 0) 3 (by decide)

/-- C10: constructing a pool with an explicit initial block count of `0`
raises `InvalidBlockCount` (construction delegates to `addBlock`), so no pool
with zero blocks can be obtained from the constructor. -/
theorem ctor_zero_raises (cfg : Config) (b0 : Nat) :
    mkPool cfg b0 0 = .error .InvalidBlockCount ∧
    ∀ n p, mkPool cfg b0 n = .ok p → 0 < p.total_block := by
  refine ⟨by simp [mkPool, addBlock], fun n p h => ?_⟩
  obtain ⟨rfl, hn⟩ := addBlock_ok cfg n _ p h
  simpa [addBlockN_total] using Nat.pos_of_ne_zero hn

theorem ctor_zero_raises_witness :
    mkPool cfgW 0 0 = .error .InvalidBlockCount ∧
    0 < (freshPool cfgW 0).total_block :=
  ⟨(ctor_zero_raises cfgW 0).1, (ctor_zero_raises cfgW 0).2 1 (freshPool cfgW 0) rfl⟩

/-- C5 (code bug): the C++ move constructor is
`ObjectPool(ObjectPool&& op) { this->swap(op); }`, with no member
initializers, so it swaps `op`'s list with the *indeterminate* values of the
destination's uninitialized `first_` / `total_block_`.  The destination does
receive the source's entire former block list, but the source does NOT become
empty: it ends up holding whatever garbage the destination's members started
with (here modelled by `garbageW`: a dangling block pointer and count 7). -/
theorem addBlocksAux_shape (cfg : Config) :
    ∀ (n : Nat) (bs : List MemoryBlock) (nb : Nat),
      ∃ fr : List MemoryBlock,
        (addBlocksAux cfg n bs nb).1 = fr ++ bs ∧ fr.length = n ∧
        ∀ b ∈ fr, ∃ a, b = newBlock cfg a := by
  intro n
  induction n with
  | zero => exact fun bs nb => ⟨[], rfl, rfl, by simp⟩
  | succ k ih =>
    intro bs nb
    obtain ⟨fr, he, hl, hm⟩ := ih (newBlock cfg nb :: bs) (nb + blockStride cfg)
    refine ⟨fr ++ [newBlock cfg nb], ?_, by simp [hl], ?_⟩
    · rw [addBlocksAux, he, List.append_assoc]
      rfl
    · intro b hb
      rcases List.mem_append.mp hb with hb | hb
      · exact hm b hb
      · exact ⟨nb, by simpa using hb⟩

theorem newBlock_units_length (cfg : Config) (a : Nat) :
    (newBlock cfg a).units.length = cfg.Cap := by
  simp [newBlock]

theorem newBlock_link (cfg : Config) (a i : Nat) (hi : i < cfg.Cap) :
    ((newBlock cfg a).units.getD i ⟨0, false⟩).link = i + 1 := by
  simp [newBlock, List.getD_eq_getElem?_getD, List.getElem?_map, List.getElem?_range hi]

theorem newBlock_occupied (cfg : Config) (a i : Nat) (hi : i < cfg.Cap) :
    ((newBlock cfg a).units.getD i ⟨0, false⟩).occupied = false := by
  simp [newBlock, List.getD_eq_getElem?_getD, List.getElem?_map, List.getElem?_range hi]

theorem freeListGo_ascending (cfg : Config) (units : List Slot)
    (hlink : ∀ i, i < cfg.Cap → (units.getD i ⟨0, false⟩).link = i + 1) :
    ∀ (fuel k : Nat), cfg.Cap - k ≤ fuel →
      freeListGo cfg units fuel k = List.range' k (cfg.Cap - k) := by
  intro fuel
  induction fuel with
  | zero =>
    intro k hk
    rw [Nat.le_zero.mp hk]
    rfl
  | succ f ih =>
    intro k hk
    by_cases h : k < cfg.Cap
    · rw [freeListGo, if_pos h, hlink k h, ih (k + 1) (by omega)]
      have hd : cfg.Cap - k = (cfg.Cap - (k + 1)) + 1 := by omega
      rw [hd, List.range'_succ]
    · rw [freeListGo, if_neg h]
      have : cfg.Cap - k = 0 := by omega
      rw [this]
      rfl

theorem newBlock_freeList (cfg : Config) (a : Nat) :
    freeList cfg (newBlock cfg a) = List.range cfg.Cap := by
  have h := freeListGo_ascending cfg (newBlock cfg a).units
    (newBlock_link cfg a) cfg.Cap 0 (by omega)
  rw [freeList, List.range_eq_range']
  simpa using h

/-- C8: every block created by `addBlock` (and by construction, which
delegates to `addBlock`) is fully free at creation and prepended to the
pool's list as the new head: `used = 0`, `first_free = 0`, and its free list
is pre-linked in ascending order `0 → 1 → … → Capacity-1 → sentinel`, the
sentinel being `Capacity` (slot `i` carries link `i + 1`). -/
theorem addBlock_fresh_blocks (cfg : Config) (n : Nat) (p q : Pool)
    (h : addBlock cfg n p = .ok q) :
    q.blocks.length = n + p.blocks.length ∧
    q.blocks.drop n = p.blocks ∧
    q.total_block = p.total_block + n ∧
    ∀ b ∈ q.blocks.take n,
      b.used = 0 ∧ b.first = 0 ∧ b.units.length = cfg.Cap ∧
      (∀ i, i < cfg.Cap → (b.units.getD i ⟨0, false⟩).link = i + 1) ∧
      freeList cfg b = List.range cfg.Cap := by
  obtain ⟨rfl, -⟩ := addBlock_ok cfg n p q h
  obtain ⟨fr, he, hl, hm⟩ := addBlocksAux_shape cfg n p.blocks p.nextBase
  have hblocks : (addBlockN cfg n p).blocks = fr ++ p.blocks := he
  refine ⟨by simp [hblocks, hl], ?_, addBlockN_total cfg n p, ?_⟩
  · rw [hblocks, ← hl, List.drop_left]
  · intro b hb
    rw [hblocks, ← hl, List.take_left] at hb
    obtain ⟨a, rfl⟩ := hm b hb
    exact ⟨rfl, rfl, newBlock_units_length cfg a, newBlock_link cfg a,
      newBlock_freeList cfg a⟩

theorem addBlock_fresh_blocks_witness :
    (addBlockN cfgW 1 (freshPool cfgW 0)).blocks.length =
      1 + (freshPool cfgW 0).blocks.length ∧
    (addBlockN cfgW 1 (freshPool cfgW 0)).blocks.drop 1 = (freshPool cfgW 0).blocks ∧
    (addBlockN cfgW 1 (freshPool cfgW 0)).total_block =
      (freshPool cfgW 0).total_block + 1 ∧
    ∀ b ∈ (addBlockN cfgW 1 (freshPool cfgW 0)).blocks.take 1,
      b.used = 0 ∧ b.first = 0 ∧ b.units.length = cfgW.Cap ∧
      (∀ i, i < cfgW.Cap → (b.units.getD i ⟨0, false⟩).link = i + 1) ∧
      freeList cfgW b = List.range cfgW.Cap :=
  addBlock_fresh_blocks cfgW 1 (freshPool cfgW 0) (addBlockN cfgW 1 (freshPool cfgW 0)) rfl

theorem removeFromTail_spec :
    ∀ (t : List MemoryBlock) (n : Nat), 1 ≤ n →
      (removeFromTail n t).2 = min n (t.countP (fun b => decide (b.used = 0))) ∧
      (removeFromTail n t).1.length = t.length - (removeFromTail n t).2 ∧
      List.Sublist (removeFromTail n t).1 t ∧
      (removeFromTail n t).1.filter (fun b => decide (0 < b.used)) =
        t.filter (fun b => decide (0 < b.used)) := by
  intro t
  induction t with
  | nil =>
    intro n hn
    refine ⟨by simp [removeFromTail], by simp [removeFromTail],
      by simp [removeFromTail], by simp [removeFromTail]⟩
  | cons b rest ih =>
    intro n hn
    have hcle : List.countP (fun x => decide (x.used = 0)) rest ≤ rest.length :=
      List.countP_le_length _
    by_cases hb : b.used = 0
    · by_cases h1 : n = 1
      · subst h1
        have he : removeFromTail 1 (b :: rest) = (rest, 1) := by
          simp [removeFromTail, hb]
        rw [he]
        refine ⟨?_, by simp, List.sublist_cons_self b rest, ?_⟩
        · simp [List.countP_cons, hb]
        · simp [List.filter_cons, hb]
      · have hn2 : 1 ≤ n - 1 := by omega
        obtain ⟨i1, i2, i3, i4⟩ := ih (n - 1) hn2
        have he : removeFromTail n (b :: rest) =
            ((removeFromTail (n - 1) rest).1, (removeFromTail (n - 1) rest).2 + 1) := by
          simp [removeFromTail, hb, h1]
        have hc : (b :: rest).countP (fun x => decide (x.used = 0)) =
            rest.countP (fun x => decide (x.used = 0)) + 1 := by
          simp [List.countP_cons, hb]
        rw [he]
        refine ⟨?_, ?_, i3.trans (List.sublist_cons_self b rest), ?_⟩
        · rw [hc]
          omega
        · simp only [List.length_cons]
          omega
        · rw [i4]
          simp [List.filter_cons, hb]
    · obtain ⟨i1, i2, i3, i4⟩ := ih n hn
      have he : removeFromTail n (b :: rest) =
          (b :: (removeFromTail n rest).1, (removeFromTail n rest).2) := by
        simp [removeFromTail, hb]
      have hc : (b :: rest).countP (fun x => decide (x.used = 0)) =
          rest.countP (fun x => decide (x.used = 0)) := by
        simp [List.countP_cons, hb]
      rw [he]
      have hbu : 0 < b.used := Nat.pos_of_ne_zero hb
      refine ⟨?_, ?_, List.Sublist.cons₂ b i3, ?_⟩
      · rw [hc]
        exact i1
      · simp only [List.length_cons]
        omega
      · have hf : (b :: rest).filter (fun x => decide (0 < x.used)) =
            b :: rest.filter (fun x => decide (0 < x.used)) := by
          simp [List.filter_cons, hbu]
        have hf2 : (b :: (removeFromTail n rest).1).filter (fun x => decide (0 < x.used)) =
            b :: (removeFromTail n rest).1.filter (fun x => decide (0 < x.used)) := by
          simp [List.filter_cons, hbu]
        rw [hf, hf2, i4]

/-- Core characterization of `removeBlock` (shared helper). -/
theorem removeBlock_core (cfg : Config) (n : Nat) (p : Pool) (hn : 0 < n)
    (htot : p.total_block = p.blocks.length) :
    ∃ q r, removeBlock cfg n p = .ok (q, r) ∧
      r = min n (p.blocks.countP (fun b => decide (b.used = 0))) ∧
      q.total_block = p.total_block - r ∧
      q.blocks.length = p.blocks.length - r ∧
      List.Sublist q.blocks p.blocks ∧
      q.blocks.filter (fun b => decide (0 < b.used)) =
        p.blocks.filter (fun b => decide (0 < b.used)) := by
  have hne : n ≠ 0 := Nat.pos_iff_ne_zero.mp hn
  by_cases h0 : p.total_block = 0
  · have hnil : p.blocks = [] := by
      rw [h0] at htot
      exact (List.length_eq_zero.mp htot.symm)
    refine ⟨p, 0, ?_, by simp [hnil], by simp, by simp [hnil], by simp, by simp⟩
    unfold removeBlock
    rw [if_neg hne, if_pos h0]
  · obtain ⟨h, t, hbt⟩ : ∃ hh tt, p.blocks = hh :: tt := by
      cases hb : p.blocks with
      | nil => exact absurd (htot.trans (by simp [hb])) h0
      | cons x xs => exact ⟨x, xs, rfl⟩
    obtain ⟨i1, i2, i3, i4⟩ := removeFromTail_spec t n hn
    have hcle : List.countP (fun x => decide (x.used = 0)) t ≤ t.length :=
      List.countP_le_length _
    have hrle : (removeFromTail n t).2 ≤ t.length := by omega
    have hlen : p.total_block = t.length + 1 := by simp [htot, hbt]
    have hunf : removeBlock cfg n p =
        if h.used = 0 ∧ (removeFromTail n t).2 < n then
          Except.ok
            (⟨(removeFromTail n t).1,
              p.total_block - ((removeFromTail n t).2 + 1), p.nextBase⟩,
             (removeFromTail n t).2 + 1)
        else
          Except.ok
            (⟨h :: (removeFromTail n t).1,
              p.total_block - (removeFromTail n t).2, p.nextBase⟩,
             (removeFromTail n t).2) := by
      unfold removeBlock
      rw [if_neg hne, if_neg h0, hbt]
    by_cases hcase : h.used = 0 ∧ (removeFromTail n t).2 < n
    · rw [if_pos hcase] at hunf
      have hc : p.blocks.countP (fun b => decide (b.used = 0)) =
          t.countP (fun b => decide (b.used = 0)) + 1 := by
        simp [hbt, List.countP_cons, hcase.1]
      refine ⟨_, _, hunf, ?_, by simp, ?_, ?_, ?_⟩
      · rw [hc]
        omega
      · simp only [hbt, List.length_cons]
        omega
      · simp only [hbt]
        exact i3.trans (List.sublist_cons_self h t)
      · have hf : p.blocks.filter (fun b => decide (0 < b.used)) =
            t.filter (fun b => decide (0 < b.used)) := by
          simp [hbt, List.filter_cons, hcase.1]
        rw [hf]
        exact i4
    · rw [if_neg hcase] at hunf
      refine ⟨_, _, hunf, ?_, by simp, ?_, ?_, ?_⟩
      · by_cases hh : h.used = 0
        · have hge : n ≤ (removeFromTail n t).2 := by
            rcases Nat.lt_or_ge (removeFromTail n t).2 n with hlt | hge
            · exact absurd ⟨hh, hlt⟩ hcase
            · exact hge
          have hc : p.blocks.countP (fun b => decide (b.used = 0)) =
              t.countP (fun b => decide (b.used = 0)) + 1 := by
            simp [hbt, List.countP_cons, hh]
          rw [hc]
          omega
        · have hc : p.blocks.countP (fun b => decide (b.used = 0)) =
              t.countP (fun b => decide (b.used = 0)) := by
            simp [hbt, List.countP_cons, hh]
          rw [hc]
          exact i1
      · simp only [hbt, List.length_cons]
        omega
      · simp only [hbt]
        exact List.Sublist.cons₂ h i3
      · by_cases hh : 0 < h.used
        · have hf : p.blocks.filter (fun b => decide (0 < b.used)) =
              h :: t.filter (fun b => decide (0 < b.used)) := by
            simp [hbt, List.filter_cons, hh]
          have hf2 : (h :: (removeFromTail n t).1).filter (fun b => decide (0 < b.used)) =
              h :: (removeFromTail n t).1.filter (fun b => decide (0 < b.used)) := by
            simp [List.filter_cons, hh]
          rw [hf, hf2, i4]
        · have hf : p.blocks.filter (fun b => decide (0 < b.used)) =
              t.filter (fun b => decide (0 < b.used)) := by
            simp [hbt, List.filter_cons, hh]
          have hf2 : (h :: (removeFromTail n t).1).filter (fun b => decide (0 < b.used)) =
              (removeFromTail n t).1.filter (fun b => decide (0 < b.used)) := by
            simp [List.filter_cons, hh]
          rw [hf, hf2, i4]

/-- C4: for every `n > 0`, `removeBlock(n)` never removes a block whose
`used` count is greater than 0 (the blocks with `used > 0` survive, in
order), removes exactly `min(n, number of blocks with used == 0)` blocks
(walking the list with the current head block checked last), decreases
`total_blocks` by that number, and returns that number. -/
theorem removeBlock_spec (cfg : Config) (n : Nat) (p : Pool) (hn : 0 < n)
    (htot : p.total_block = p.blocks.length) :
    ∃ q r, removeBlock cfg n p = .ok (q, r) ∧
      r = min n (p.blocks.countP (fun b => decide (b.used = 0))) ∧
      q.total_block = p.total_block - r ∧
      q.blocks.length = p.blocks.length - r ∧
      List.Sublist q.blocks p.blocks ∧
      q.blocks.filter (fun b => decide (0 < b.used)) =
        p.blocks.filter (fun b => decide (0 < b.used)) :=
  removeBlock_core cfg n p hn htot

theorem removeBlock_spec_witness :
    ∃ q r, removeBlock cfgW 2 (addBlockN cfgW 2 (get cfgW (freshPool cfgW 100)).1) = .ok (q, r) ∧
      r = min 2 ((addBlockN cfgW 2 (get cfgW (freshPool cfgW 100)).1).blocks.countP
        (fun b => decide (b.used = 0))) ∧
      q.total_block = (addBlockN cfgW 2 (get cfgW (freshPool cfgW 100)).1).total_block - r ∧
      q.blocks.length = (addBlockN cfgW 2 (get cfgW (freshPool cfgW 100)).1).blocks.length - r ∧
      List.Sublist q.blocks (addBlockN cfgW 2 (get cfgW (freshPool cfgW 100)).1).blocks ∧
      q.blocks.filter (fun b => decide (0 < b.used)) =
        (addBlockN cfgW 2 (get cfgW (freshPool cfgW 100)).1).blocks.filter
          (fun b => decide (0 < b.used)) :=
  removeBlock_spec cfgW 2 (addBlockN cfgW 2 (get cfgW (freshPool cfgW 100)).1)
    (by decide) (by decide)

theorem releaseGo_none_iff (cfg : Config) (ptr : Nat) :
    ∀ bs : List MemoryBlock,
      releaseGo cfg ptr bs = none ↔ ∀ b ∈ bs, codeInRange cfg b ptr = false := by
  intro bs
  induction bs with
  | nil => simp [releaseGo]
  | cons b rest ih =>
    by_cases hb : codeInRange cfg b ptr
    · simp [releaseGo, hb]
    · have hb2 : codeInRange cfg b ptr = false := by simpa using hb
      simp [releaseGo, hb2, Option.map_eq_none', ih]

theorem releaseGo_finds (cfg : Config) (ptr : Nat) :
    ∀ (bs : List MemoryBlock) (j : Nat) (b : MemoryBlock),
      bs[j]? = some b → codeInRange cfg b ptr = true →
      (∀ k, k < j → ∀ c, bs[k]? = some c → codeInRange cfg c ptr = false) →
      releaseGo cfg ptr bs =
        some (bs.set j (relUpd cfg b ((ptr - cfg.idxSz - b.base) / unitSz cfg))) := by
  intro bs
  induction bs with
  | nil =>
    intro j b hj
    simp at hj
  | cons b0 rest ih =>
    intro j b hj hr hks
    cases j with
    | zero =>
      have hb : b0 = b := by simpa using hj
      subst hb
      simp [releaseGo, hr]
    | succ jp =>
      have h0 : codeInRange cfg b0 ptr = false :=
        hks 0 (Nat.succ_pos jp) b0 (by simp)
      have hjp : rest[jp]? = some b := by simpa using hj
      have hksp : ∀ k, k < jp → ∀ c, rest[k]? = some c →
          codeInRange cfg c ptr = false := by
        intro k hk c hc
        exact hks (k + 1) (by omega) c (by simpa using hc)
      have hrw : releaseGo cfg ptr (b0 :: rest) =
          (releaseGo cfg ptr rest).map (fun u => b0 :: u) := by
        simp [releaseGo, h0]
      rw [hrw, ih jp b hjp hr hksp]
      rfl

theorem slotAddr_in_range (cfg : Config) (hOK : cfg.OK) (b : MemoryBlock)
    (i : Nat) (hi : i < cfg.Cap) :
    codeInRange cfg b (slotAddr cfg b i) = true := by
  obtain ⟨hCap, hobj, hidx⟩ := hOK
  have hu : 0 < unitSz cfg := by
    unfold unitSz
    omega
  have hiu : cfg.idxSz < unitSz cfg := by
    unfold unitSz
    omega
  have hmul : (i + 1) * unitSz cfg ≤ cfg.Cap * unitSz cfg :=
    Nat.mul_le_mul_right _ (by omega)
  have hsplit : i * unitSz cfg + unitSz cfg = (i + 1) * unitSz cfg := by
    ring
  have h1 : b.base < b.base + i * unitSz cfg + cfg.idxSz := by omega
  have h2 : b.base + i * unitSz cfg + cfg.idxSz < b.base + cfg.Cap * unitSz cfg := by
    omega
  unfold codeInRange slotAddr
  simp only [h1, h2, decide_eq_true_eq, Bool.and_eq_true]
  exact ⟨by simpa using h1, by simpa using h2⟩

theorem slotAddr_off (cfg : Config) (hOK : cfg.OK) (b : MemoryBlock) (i : Nat) :
    (slotAddr cfg b i - cfg.idxSz - b.base) / unitSz cfg = i := by
  obtain ⟨hCap, hobj, hidx⟩ := hOK
  have hu : 0 < unitSz cfg := by
    unfold unitSz
    omega
  have h : slotAddr cfg b i - cfg.idxSz - b.base = i * unitSz cfg := by
    unfold slotAddr
    omega
  rw [h, Nat.mul_div_cancel _ hu]

theorem getD_set_self (l : List Slot) (i : Nat) (v : Slot) (h : i < l.length) :
    (l.set i v).getD i ⟨0, false⟩ = v := by
  rw [List.getD_eq_getElem?_getD, List.getElem?_set_eq_of_lt v h]
  rfl

/-- Core characterization of `release` (shared helper): the error condition
and the effects on the owning block. -/
theorem release_core (cfg : Config) (hOK : cfg.OK)
    (p : Pool) (ptr : Nat) :
    (release cfg ptr p = .error .UnknownPointer ↔
      ∀ b ∈ p.blocks, codeInRange cfg b ptr = false) ∧
    (∀ j b i, p.blocks[j]? = some b → i < cfg.Cap →
      i < b.units.length → 0 < b.used →
      (∀ k, k < j → ∀ c, p.blocks[k]? = some c →
        codeInRange cfg c (slotAddr cfg b i) = false) →
      release cfg (slotAddr cfg b i) p =
        .ok ⟨p.blocks.set j (relUpd cfg b i), p.total_block, p.nextBase⟩ ∧
      (relUpd cfg b i).used + 1 = b.used ∧
      (relUpd cfg b i).first = i ∧
      ((relUpd cfg b i).units.getD i ⟨0, false⟩).link = b.first ∧
      ((relUpd cfg b i).units.getD i ⟨0, false⟩).occupied = false) := by
  constructor
  · cases hr : releaseGo cfg ptr p.blocks with
    | some bs =>
      constructor
      · intro h
        exact absurd (by rw [release, hr] at h; exact h) (by simp)
      · intro hall
        exact absurd ((releaseGo_none_iff cfg ptr p.blocks).mpr hall)
          (by simp [hr])
    | none =>
      constructor
      · intro _
        exact (releaseGo_none_iff cfg ptr p.blocks).mp hr
      · intro _
        rw [release, hr]
  · intro j b i hj hi hlen hu hks
    have hrange := slotAddr_in_range cfg hOK b i hi
    have hoff := slotAddr_off cfg hOK b i
    have hgo := releaseGo_finds cfg (slotAddr cfg b i) p.blocks j b hj hrange hks
    rw [hoff] at hgo
    refine ⟨?_, ?_, rfl, ?_, ?_⟩
    · rw [release, hgo]
    · unfold relUpd
      dsimp only
      omega
    · rw [show (relUpd cfg b i).units = b.units.set i ⟨b.first, false⟩ from rfl,
        getD_set_self b.units i ⟨b.first, false⟩ hlen]
    · rw [show (relUpd cfg b i).units = b.units.set i ⟨b.first, false⟩ from rfl,
        getD_set_self b.units i ⟨b.first, false⟩ hlen]

/-- C2 (amended): `release(p)` raises `UnknownPointer` iff `p` does not fall
within any block's slot storage range taken with an EXCLUSIVE lower bound
(the code tests `blk->units < ptr`, so the first byte of slot 0 itself is
outside the range); when
the first block whose range contains `p` holds `p` at slot `i`'s object
storage (and that slot is live, so `used > 0`), `release` decrements that
block's `used`, sets slot `i`'s link field to the old `first_free`, sets
`first_free` to `i`, and destroys the object, raising no error. -/
theorem release_error_iff_and_effects (cfg : Config) (hOK : cfg.OK)
    (p : Pool) (ptr : Nat) :
    (release cfg ptr p = .error .UnknownPointer ↔
      ∀ b ∈ p.blocks, codeInRange cfg b ptr = false) ∧
    (∀ j b i, p.blocks[j]? = some b → i < cfg.Cap →
      i < b.units.length → 0 < b.used →
      (∀ k, k < j → ∀ c, p.blocks[k]? = some c →
        codeInRange cfg c (slotAddr cfg b i) = false) →
      release cfg (slotAddr cfg b i) p =
        .ok ⟨p.blocks.set j (relUpd cfg b i), p.total_block, p.nextBase⟩ ∧
      (relUpd cfg b i).used + 1 = b.used ∧
      (relUpd cfg b i).first = i ∧
      ((relUpd cfg b i).units.getD i ⟨0, false⟩).link = b.first ∧
      ((relUpd cfg b i).units.getD i ⟨0, false⟩).occupied = false) :=
  release_core cfg hOK p ptr

theorem release_error_iff_and_effects_witness :
    (release cfgW 50 pW = .error .UnknownPointer ↔
      ∀ b ∈ pW.blocks, codeInRange cfgW b 50 = false) ∧
    release cfgW (slotAddr cfgW bW 0) pW =
      .ok ⟨pW.blocks.set 0 (relUpd cfgW bW 0), pW.total_block, pW.nextBase⟩ ∧
    (relUpd cfgW bW 0).used + 1 = bW.used ∧
    (relUpd cfgW bW 0).first = 0 ∧
    ((relUpd cfgW bW 0).units.getD 0 ⟨0, false⟩).link = bW.first ∧
    ((relUpd cfgW bW 0).units.getD 0 ⟨0, false⟩).occupied = false := by
  have h := release_error_iff_and_effects cfgW (by decide) pW 50
  have h2 := (release_error_iff_and_effects cfgW (by decide) pW (slotAddr cfgW bW 0)).2
    0 bW 0 rfl (by decide) (by decide) (by decide)
    (by intro k hk c hc; omega)
  exact ⟨h.1, h2⟩

theorem blkK_zero (cfg : Config) (base : Nat) :
    blkK cfg base 0 = newBlock cfg base := by
  unfold blkK newBlock
  simp

theorem blkK_units_length (cfg : Config) (base k : Nat) :
    (blkK cfg base k).units.length = cfg.Cap := by
  simp [blkK]

theorem blkK_units_getD (cfg : Config) (base k i : Nat) (hi : i < cfg.Cap) :
    (blkK cfg base k).units.getD i ⟨0, false⟩ = ⟨i + 1, decide (i < k)⟩ := by
  simp [blkK, List.getD_eq_getElem?_getD, List.getElem?_map, List.getElem?_range hi]

theorem blkK_set (cfg : Config) (base k : Nat) (hk : k < cfg.Cap) :
    (blkK cfg base k).units.set k ⟨k + 1, true⟩ = (blkK cfg base (k + 1)).units := by
  apply List.ext_getElem?
  intro i
  by_cases hik : i = k
  · rw [hik]
    have hlen : k < (blkK cfg base k).units.length := by
      rw [blkK_units_length]
      exact hk
    rw [List.getElem?_set_eq_of_lt _ hlen]
    simp [blkK, List.getElem?_map, List.getElem?_range hk, Nat.lt_succ_self]
  · rw [List.getElem?_set_ne (fun hh => hik hh.symm)]
    by_cases hi : i < cfg.Cap
    · simp only [blkK, List.getElem?_map, List.getElem?_range hi, Option.map_some']
      have : decide (i < k) = decide (i < k + 1) :=
        decide_eq_decide.mpr (by omega)
      rw [this]
    · have h1 : (blkK cfg base k).units.length ≤ i := by
        rw [blkK_units_length]
        omega
      have h2 : (blkK cfg base (k + 1)).units.length ≤ i := by
        rw [blkK_units_length]
        omega
      rw [List.getElem?_eq_none h1, List.getElem?_eq_none h2]

theorem freshPool_eq (cfg : Config) (b0 : Nat) :
    freshPool cfg b0 = ⟨[newBlock cfg b0], 1, b0 + blockStride cfg⟩ :=
  rfl

theorem get_eq_of_findIdx (cfg : Config) (p : Pool) (j : Nat)
    (hne : p.blocks ≠ [])
    (hfind : List.findIdx? (fun b => b.used != cfg.Cap) p.blocks = some j) :
    get cfg p =
      ({ p with blocks :=
          p.blocks.set j (popSlot cfg (p.blocks.getD j (newBlock cfg 0))).1 },
       (popSlot cfg (p.blocks.getD j (newBlock cfg 0))).2) := by
  have hie : p.blocks.isEmpty = false := by
    cases hb : p.blocks with
    | nil => exact absurd hb hne
    | cons x xs => rfl
  unfold get
  rw [hie]
  simp only [Bool.false_eq_true, if_false, hfind]

theorem popSlot_blkK (cfg : Config) (b0 k : Nat) (hk : k < cfg.Cap) :
    popSlot cfg (blkK cfg b0 k) =
      (blkK cfg b0 (k + 1), b0 + k * unitSz cfg + cfg.idxSz) := by
  unfold popSlot
  dsimp only
  rw [show (blkK cfg b0 k).first = k from rfl]
  rw [blkK_units_getD cfg b0 k k hk]
  dsimp only
  rw [blkK_set cfg b0 k hk]
  rfl

theorem get_on_blkK (cfg : Config) (b0 nb k : Nat) (hk : k < cfg.Cap) :
    get cfg ⟨[blkK cfg b0 k], 1, nb⟩ =
      (⟨[blkK cfg b0 (k + 1)], 1, nb⟩, b0 + k * unitSz cfg + cfg.idxSz) := by
  have hfind : List.findIdx? (fun b => b.used != cfg.Cap) [blkK cfg b0 k] = some 0 := by
    rw [List.findIdx?_cons]
    have hp : ((blkK cfg b0 k).used != cfg.Cap) = true := by
      have : (blkK cfg b0 k).used = k := rfl
      rw [this]
      simp only [bne_iff_ne, ne_eq, decide_eq_true_eq]
      omega
    rw [if_pos hp]
  rw [get_eq_of_findIdx cfg _ 0 (by simp) hfind]
  have hgd : (([blkK cfg b0 k] : List MemoryBlock).getD 0 (newBlock cfg 0)) =
      blkK cfg b0 k := rfl
  rw [hgd, popSlot_blkK cfg b0 k hk]
  rfl

theorem iterGet_fresh (cfg : Config) (b0 : Nat) :
    ∀ k, k ≤ cfg.Cap →
      iterGet cfg k (freshPool cfg b0) =
        ⟨[blkK cfg b0 k], 1, b0 + blockStride cfg⟩ := by
  intro k
  induction k with
  | zero =>
    intro _
    rw [iterGet, freshPool_eq, blkK_zero]
  | succ k ih =>
    intro hk
    rw [iterGet, ih (by omega), get_on_blkK cfg b0 _ k (by omega)]

theorem get_on_full (cfg : Config) (b0 nb : Nat) :
    get cfg ⟨[blkK cfg b0 cfg.Cap], 1, nb⟩ =
      (⟨[(popSlot cfg (newBlock cfg nb)).1, blkK cfg b0 cfg.Cap], 2, nb + blockStride cfg⟩,
       (popSlot cfg (newBlock cfg nb)).2) := by
  have hfind : List.findIdx? (fun b => b.used != cfg.Cap) [blkK cfg b0 cfg.Cap] = none := by
    rw [List.findIdx?_cons]
    have hp : ((blkK cfg b0 cfg.Cap).used != cfg.Cap) = false := by
      have : (blkK cfg b0 cfg.Cap).used = cfg.Cap := rfl
      rw [this]
      simp
    rw [if_neg (by simp [hp])]
    rfl
  unfold get
  rw [show (([blkK cfg b0 cfg.Cap] : List MemoryBlock).isEmpty) = false from rfl]
  simp only [Bool.false_eq_true, if_false, hfind]
  rfl

/-- C1: for a freshly constructed single-block pool, each of the first
`BlockCapacity` calls to `get` returns a handle (the address of slot `k` of
the original block on call `k+1`) without increasing `total_blocks` (`get`
selects the first block with `used < Capacity` scanning from the head), and
the `(BlockCapacity+1)`-th call increases `total_blocks` by exactly one and
returns a handle inside the newly added head block, whose address range is
disjoint from every block of the original pool. -/
theorem get_block_consumption (cfg : Config) (hOK : cfg.OK) (b0 : Nat) :
    mkPool cfg b0 1 = .ok (freshPool cfg b0) ∧
    (∀ k, k ≤ cfg.Cap → (iterGet cfg k (freshPool cfg b0)).total_block = 1) ∧
    (∀ k, k < cfg.Cap → (get cfg (iterGet cfg k (freshPool cfg b0))).2 =
      b0 + k * unitSz cfg + cfg.idxSz) ∧
    (iterGet cfg (cfg.Cap + 1) (freshPool cfg b0)).total_block = 2 ∧
    (∃ hb, (iterGet cfg (cfg.Cap + 1) (freshPool cfg b0)).blocks.head? = some hb ∧
      hb.base = (freshPool cfg b0).nextBase ∧
      codeInRange cfg hb ((get cfg (iterGet cfg cfg.Cap (freshPool cfg b0))).2) = true ∧
      ∀ b ∈ (freshPool cfg b0).blocks, b.base + cfg.Cap * unitSz cfg ≤ hb.base) := by
  obtain ⟨hCap, hobj, hidx⟩ := hOK
  have hfull : iterGet cfg (cfg.Cap + 1) (freshPool cfg b0) =
      ⟨[(popSlot cfg (newBlock cfg (b0 + blockStride cfg))).1, blkK cfg b0 cfg.Cap], 2,
        (b0 + blockStride cfg) + blockStride cfg⟩ := by
    rw [iterGet, iterGet_fresh cfg b0 cfg.Cap (by omega), get_on_full cfg b0 _]
  have hhandle : (get cfg (iterGet cfg cfg.Cap (freshPool cfg b0))).2 =
      (popSlot cfg (newBlock cfg (b0 + blockStride cfg))).2 := by
    rw [iterGet_fresh cfg b0 cfg.Cap (by omega), get_on_full cfg b0 _]
  refine ⟨rfl, ?_, ?_, ?_, ?_⟩
  · intro k hk
    rw [iterGet_fresh cfg b0 k hk]
  · intro k hk
    rw [iterGet_fresh cfg b0 k (by omega), get_on_blkK cfg b0 _ k hk]
  · rw [hfull]
  · refine ⟨(popSlot cfg (newBlock cfg (b0 + blockStride cfg))).1, ?_, rfl, ?_, ?_⟩
    · rw [hfull]
      rfl
    · rw [hhandle]
      have hr := slotAddr_in_range cfg ⟨hCap, hobj, hidx⟩
        (newBlock cfg (b0 + blockStride cfg)) 0 hCap
      exact hr
    · intro b hb
      rw [freshPool_eq] at hb
      have hbe : b = newBlock cfg b0 := by simpa using hb
      subst hbe
      have h1 : (newBlock cfg b0).base = b0 := rfl
      have h2 : (popSlot cfg (newBlock cfg (b0 + blockStride cfg))).1.base =
          b0 + blockStride cfg := rfl
      rw [h1, h2]
      unfold blockStride
      omega

theorem get_block_consumption_witness :
    mkPool cfgW 0 1 = .ok (freshPool cfgW 0) ∧
    (iterGet cfgW 2 (freshPool cfgW 0)).total_block = 1 ∧
    (get cfgW (iterGet cfgW 1 (freshPool cfgW 0))).2 =
      0 + 1 * unitSz cfgW + cfgW.idxSz ∧
    (iterGet cfgW 3 (freshPool cfgW 0)).total_block = 2 := by
  have h := get_block_consumption cfgW (by decide) 0
  exact ⟨h.1, h.2.1 2 (by decide), h.2.2.1 1 (by decide), h.2.2.2.1⟩

/-- C2 counterexample: the claim's range test includes the first byte of
slot 0 (inclusive lower bound, per the spec's "exact byte bounds"), but the
code tests `blk->units < ptr` with a STRICT lower bound, so `release` on the
address of `units[0]` itself raises `UnknownPointer` even though the claimed
range contains it. -/
theorem release_spec_range_cex :
    release cfgW 100 (freshPool cfgW 100) = .error .UnknownPointer ∧
    (freshPool cfgW 100).blocks.any (fun b => specInRange cfgW b 100) = true :=
  ⟨rfl, rfl⟩

theorem move_ctor_source_not_emptied :
    (moveCtor garbageW (freshPool cfgW 100)).1.blocks = (freshPool cfgW 100).blocks ∧
    (moveCtor garbageW (freshPool cfgW 100)).1.total_block = (freshPool cfgW 100).total_block ∧
    (moveCtor garbageW (freshPool cfgW 100)).2.total_block = 7 ∧
    (moveCtor garbageW (freshPool cfgW 100)).2.blocks ≠ [] := by
  refine ⟨rfl, rfl, rfl, ?_⟩
  decide

theorem IsChain.mem_lt (cfg : Config) (units : List Slot) (s : Nat) (fl : List Nat)
    (h : IsChain cfg units s fl) : ∀ j ∈ fl, j < cfg.Cap := by
  induction h with
  | nil => simp
  | cons hlt _ ih =>
    intro j hj
    rcases List.mem_cons.mp hj with rfl | hj
    · exact hlt
    · exact ih j hj

theorem IsChain.congr_links (cfg : Config) (units units2 : List Slot) (s : Nat)
    (fl : List Nat) (h : IsChain cfg units s fl)
    (hl : ∀ j ∈ fl, (units2.getD j ⟨0, false⟩).link = (units.getD j ⟨0, false⟩).link) :
    IsChain cfg units2 s fl := by
  induction h with
  | nil => exact IsChain.nil
  | cons hlt hch ih =>
    rename_i i2 fl2
    refine IsChain.cons hlt ?_
    rw [hl i2 (List.mem_cons_self i2 fl2)]
    exact ih (fun j hj => hl j (List.mem_cons_of_mem _ hj))

theorem IsChain_ascending (cfg : Config) (units : List Slot)
    (hlink : ∀ i, i < cfg.Cap → (units.getD i ⟨0, false⟩).link = i + 1) :
    ∀ d k, k + d = cfg.Cap → IsChain cfg units k (List.range' k d) := by
  intro d
  induction d with
  | zero =>
    intro k hk
    rw [show k = cfg.Cap by omega]
    exact IsChain.nil
  | succ d ih =>
    intro k hk
    have hklt : k < cfg.Cap := by omega
    rw [List.range'_succ]
    refine IsChain.cons hklt ?_
    rw [hlink k hklt]
    exact ih (k + 1) (by omega)

theorem freeListGo_eq_of_chain (cfg : Config) (units : List Slot) (fl : List Nat)
    (s : Nat) (h : IsChain cfg units s fl) :
    ∀ fuel, fl.length ≤ fuel → freeListGo cfg units fuel s = fl := by
  induction h with
  | nil =>
    intro fuel _
    cases fuel with
    | zero => rfl
    | succ f =>
      rw [freeListGo, if_neg (by omega)]
  | cons hlt hch ih =>
    rename_i i2 fl2
    intro fuel hle
    cases fuel with
    | zero => simp at hle
    | succ f =>
      rw [freeListGo, if_pos hlt, ih f (by simpa using hle)]

theorem chain_length_le (cfg : Config) (units : List Slot) (s : Nat) (fl : List Nat)
    (h : IsChain cfg units s fl) (hnd : fl.Nodup) : fl.length ≤ cfg.Cap := by
  have hsub : fl.toFinset ⊆ Finset.range cfg.Cap := by
    intro x hx
    simp only [Finset.mem_range]
    exact IsChain.mem_lt cfg units s fl h x (List.mem_toFinset.mp hx)
  have := Finset.card_le_card hsub
  rw [List.toFinset_card_of_nodup hnd, Finset.card_range] at this
  exact this

theorem BlockWF.used_pos (cfg : Config) (b : MemoryBlock) (hwf : BlockWF cfg b)
    (i : Nat) (hi : i < cfg.Cap)
    (hocc : (b.units.getD i ⟨0, false⟩).occupied = true) : 0 < b.used := by
  obtain ⟨hlen, fl, hch, hnd, hlfl, hunocc⟩ := hwf
  by_contra h0
  have hfull : fl.length = cfg.Cap := by omega
  have hsub : fl.toFinset ⊆ Finset.range cfg.Cap := by
    intro x hx
    simp only [Finset.mem_range]
    exact IsChain.mem_lt cfg b.units b.first fl hch x (List.mem_toFinset.mp hx)
  have hcard : fl.toFinset.card = cfg.Cap := by
    rw [List.toFinset_card_of_nodup hnd, hfull]
  have heq : fl.toFinset = Finset.range cfg.Cap :=
    Finset.eq_of_subset_of_card_le hsub (by rw [hcard, Finset.card_range])
  have hifl : i ∈ fl := by
    rw [← List.mem_toFinset, heq]
    simpa using hi
  rw [hunocc i hifl] at hocc
  exact Bool.false_ne_true hocc

theorem getD_set_ne_self (l : List Slot) (i j : Nat) (v : Slot) (hne : j ≠ i) :
    (l.set i v).getD j ⟨0, false⟩ = l.getD j ⟨0, false⟩ := by
  rw [List.getD_eq_getElem?_getD, List.getD_eq_getElem?_getD,
    List.getElem?_set_ne (fun hh => hne hh.symm)]

theorem IsChain.cons_inv (cfg : Config) (units : List Slot) (s x : Nat) (fl : List Nat)
    (h : IsChain cfg units s (x :: fl)) :
    s = x ∧ x < cfg.Cap ∧ IsChain cfg units ((units.getD x ⟨0, false⟩).link) fl := by
  cases h with
  | cons hlt hch => exact ⟨rfl, hlt, hch⟩

theorem blockWF_newBlock (cfg : Config) (a : Nat) : BlockWF cfg (newBlock cfg a) := by
  refine ⟨newBlock_units_length cfg a, List.range cfg.Cap, ?_, List.nodup_range cfg.Cap, ?_, ?_⟩
  · rw [List.range_eq_range']
    exact IsChain_ascending cfg (newBlock cfg a).units (newBlock_link cfg a) cfg.Cap 0
      (by omega)
  · rw [List.length_range]
    rfl
  · intro i hi
    exact newBlock_occupied cfg a i (List.mem_range.mp hi)

theorem blockWF_pop (cfg : Config) (b : MemoryBlock) (hwf : BlockWF cfg b)
    (hne : b.used ≠ cfg.Cap) :
    BlockWF cfg (popSlot cfg b).1 ∧ (popSlot cfg b).1.base = b.base ∧
    (popSlot cfg b).1.used = b.used + 1 ∧ b.first < cfg.Cap ∧
    (popSlot cfg b).2 = slotAddr cfg b b.first := by
  obtain ⟨hlen, fl, hch, hnd, hlfl, hunocc⟩ := hwf
  have hflpos : 0 < fl.length := by omega
  obtain ⟨f0, fl2, rfl⟩ : ∃ f0 fl2, fl = f0 :: fl2 := by
    cases fl with
    | nil => simp at hflpos
    | cons x xs => exact ⟨x, xs, rfl⟩
  obtain ⟨hf0, hltf, hch2x⟩ := IsChain.cons_inv cfg b.units b.first f0 fl2 hch
  subst hf0
  have hlt : b.first < cfg.Cap := hltf
  have hch2 : IsChain cfg b.units ((b.units.getD b.first ⟨0, false⟩).link) fl2 := hch2x
  have hflen : b.first < b.units.length := by omega
  have hlinkeq : ∀ j : Nat,
      (((b.units.set b.first
          ⟨(b.units.getD b.first ⟨0, false⟩).link, true⟩).getD j ⟨0, false⟩)).link =
        ((b.units.getD j ⟨0, false⟩)).link := by
    intro j
    by_cases hji : j = b.first
    · rw [hji, getD_set_self _ _ _ hflen]
    · rw [getD_set_ne_self _ _ _ _ hji]
  refine ⟨⟨?_, fl2, ?_, hnd.of_cons, ?_, ?_⟩, rfl, rfl, hlt, rfl⟩
  · rw [show (popSlot cfg b).1.units =
        b.units.set b.first ⟨(b.units.getD b.first ⟨0, false⟩).link, true⟩ from rfl,
      List.length_set]
    exact hlen
  · exact IsChain.congr_links cfg b.units _ _ fl2 hch2 (fun j _ => hlinkeq j)
  · rw [show (popSlot cfg b).1.used = b.used + 1 from rfl]
    simp only [List.length_cons] at hlfl
    omega
  · intro j hj
    have hjne : j ≠ b.first := by
      intro hje
      subst hje
      exact (List.nodup_cons.mp hnd).1 hj
    rw [show (popSlot cfg b).1.units =
        b.units.set b.first ⟨(b.units.getD b.first ⟨0, false⟩).link, true⟩ from rfl,
      getD_set_ne_self _ _ _ _ hjne]
    exact hunocc j (List.mem_cons_of_mem _ hj)

theorem blockWF_relUpd (cfg : Config) (b : MemoryBlock) (hwf : BlockWF cfg b)
    (i : Nat) (hi : i < cfg.Cap)
    (hocc : (b.units.getD i ⟨0, false⟩).occupied = true) :
    BlockWF cfg (relUpd cfg b i) ∧ (relUpd cfg b i).base = b.base ∧
    (relUpd cfg b i).used + 1 = b.used := by
  have hupos : 0 < b.used := BlockWF.used_pos cfg b hwf i hi hocc
  obtain ⟨hlen, fl, hch, hnd, hlfl, hunocc⟩ := hwf
  have hiflen : i < b.units.length := by omega
  have hinotfl : i ∉ fl := by
    intro hmem
    rw [hunocc i hmem] at hocc
    exact Bool.false_ne_true hocc
  have hu2 : (relUpd cfg b i).units = b.units.set i ⟨b.first, false⟩ := rfl
  refine ⟨⟨by rw [hu2]; simpa using hlen, i :: fl, ?_, ?_, ?_, ?_⟩, rfl, by
    rw [show (relUpd cfg b i).used = b.used - 1 from rfl]
    omega⟩
  · refine IsChain.cons hi ?_
    rw [show (relUpd cfg b i).first = i from rfl, hu2, getD_set_self _ _ _ hiflen]
    exact IsChain.congr_links cfg b.units _ b.first fl hch
      (fun j hj => by
        rw [getD_set_ne_self _ _ _ _ (show j ≠ i from fun hje => hinotfl (hje ▸ hj))])
  · exact List.nodup_cons.mpr ⟨hinotfl, hnd⟩
  · rw [show (relUpd cfg b i).used = b.used - 1 from rfl]
    simp only [List.length_cons]
    omega
  · intro j hj
    rcases List.mem_cons.mp hj with rfl | hj2
    · rw [hu2, getD_set_self _ _ _ hiflen]
    · rw [hu2, getD_set_ne_self _ _ _ _ (show j ≠ i from fun hje => hinotfl (hje ▸ hj2))]
      exact hunocc j hj2

theorem mem_of_getElem_opt (l : List MemoryBlock) (i : Nat) (a : MemoryBlock)
    (h : l[i]? = some a) : a ∈ l := by
  obtain ⟨hlt, rfl⟩ := List.getElem?_eq_some.mp h
  exact List.getElem_mem hlt

theorem slotAddr_lt_end (cfg : Config) (hOK : cfg.OK) (b : MemoryBlock)
    (i : Nat) (hi : i < cfg.Cap) :
    slotAddr cfg b i < b.base + cfg.Cap * unitSz cfg := by
  obtain ⟨hCap, hobj, hidx⟩ := hOK
  have hiu : cfg.idxSz < unitSz cfg := by
    unfold unitSz
    omega
  have hmul : (i + 1) * unitSz cfg ≤ cfg.Cap * unitSz cfg :=
    Nat.mul_le_mul_right _ (by omega)
  have hsplit : i * unitSz cfg + unitSz cfg = (i + 1) * unitSz cfg := by
    ring
  unfold slotAddr
  omega

theorem pairwise_base_set (cfg : Config) (bs : List MemoryBlock) (j : Nat)
    (b c : MemoryBlock)
    (hp : bs.Pairwise (fun x y => y.base + cfg.Cap * unitSz cfg ≤ x.base))
    (hj : bs[j]? = some b) (hbase : c.base = b.base) :
    (bs.set j c).Pairwise (fun x y => y.base + cfg.Cap * unitSz cfg ≤ x.base) := by
  obtain ⟨hjlt, hjeq⟩ := List.getElem?_eq_some.mp hj
  rw [List.pairwise_iff_getElem] at hp ⊢
  intro a d ha hd hlt
  have ha2 : a < bs.length := by simpa using ha
  have hd2 : d < bs.length := by simpa using hd
  have hpad := hp a d ha2 hd2 hlt
  by_cases hja : j = a
  · by_cases hjd : j = d
    · omega
    · have h1 : (bs.set j c)[a] = c := by
        subst hja
        rw [List.getElem_set_self (by simpa using ha)]
      have h2 : (bs.set j c)[d] = bs[d] := by
        rw [List.getElem_set_ne hjd]
      rw [h1, h2, hbase, ← hjeq]
      subst hja
      exact hpad
  · have h1 : (bs.set j c)[a] = bs[a] := by
      rw [List.getElem_set_ne hja]
    by_cases hjd : j = d
    · have h2 : (bs.set j c)[d] = c := by
        subst hjd
        rw [List.getElem_set_self (by simpa using hd)]
      rw [h1, h2, hbase, ← hjeq]
      subst hjd
      exact hp a j ha2 hjlt hlt
    · have h2 : (bs.set j c)[d] = bs[d] := by
        rw [List.getElem_set_ne hjd]
      rw [h1, h2]
      exact hpad

theorem poolWF_set_block (cfg : Config) (p : Pool) (j : Nat) (b c : MemoryBlock)
    (hwf : PoolWF cfg p) (hj : p.blocks[j]? = some b) (hbase : c.base = b.base)
    (hcwf : BlockWF cfg c) :
    PoolWF cfg ⟨p.blocks.set j c, p.total_block, p.nextBase⟩ := by
  obtain ⟨ht, hpw, hbn, hbw⟩ := hwf
  refine ⟨by simpa using ht, pairwise_base_set cfg _ j b c hpw hj hbase, ?_, ?_⟩
  · intro x hx
    rcases List.mem_or_eq_of_mem_set hx with hx | rfl
    · exact hbn x hx
    · rw [hbase]
      exact hbn b (mem_of_getElem_opt _ _ _ hj)
  · intro x hx
    rcases List.mem_or_eq_of_mem_set hx with hx | rfl
    · exact hbw x hx
    · exact hcwf

theorem blocksWF_addBlocksAux (cfg : Config) :
    ∀ (n : Nat) (bs : List MemoryBlock) (nb : Nat),
      bs.Pairwise (fun x y => y.base + cfg.Cap * unitSz cfg ≤ x.base) →
      (∀ b ∈ bs, b.base + cfg.Cap * unitSz cfg ≤ nb) →
      (∀ b ∈ bs, BlockWF cfg b) →
      (addBlocksAux cfg n bs nb).1.Pairwise
        (fun x y => y.base + cfg.Cap * unitSz cfg ≤ x.base) ∧
      (∀ b ∈ (addBlocksAux cfg n bs nb).1,
        b.base + cfg.Cap * unitSz cfg ≤ (addBlocksAux cfg n bs nb).2) ∧
      (∀ b ∈ (addBlocksAux cfg n bs nb).1, BlockWF cfg b) := by
  intro n
  induction n with
  | zero =>
    intro bs nb h1 h2 h3
    exact ⟨h1, h2, h3⟩
  | succ k ih =>
    intro bs nb h1 h2 h3
    rw [addBlocksAux]
    apply ih
    · refine List.pairwise_cons.mpr ⟨?_, h1⟩
      intro y hy
      exact h2 y hy
    · intro b hb
      rcases List.mem_cons.mp hb with rfl | hb
      · rw [show (newBlock cfg nb).base = nb from rfl]
        unfold blockStride
        omega
      · have := h2 b hb
        unfold blockStride
        omega
    · intro b hb
      rcases List.mem_cons.mp hb with rfl | hb
      · exact blockWF_newBlock cfg nb
      · exact h3 b hb

theorem poolWF_addBlockN (cfg : Config) (n : Nat) (p : Pool) (hwf : PoolWF cfg p) :
    PoolWF cfg (addBlockN cfg n p) := by
  obtain ⟨ht, hpw, hbn, hbw⟩ := hwf
  obtain ⟨h1, h2, h3⟩ := blocksWF_addBlocksAux cfg n p.blocks p.nextBase hpw hbn hbw
  obtain ⟨fr, he, hl, -⟩ := addBlocksAux_shape cfg n p.blocks p.nextBase
  refine ⟨?_, h1, h2, h3⟩
  rw [show (addBlockN cfg n p).total_block = p.total_block + n from rfl,
    show (addBlockN cfg n p).blocks = (addBlocksAux cfg n p.blocks p.nextBase).1 from rfl,
    he, List.length_append, hl, ht]
  omega

theorem poolWF_mkPool (cfg : Config) (b0 n : Nat) (p : Pool)
    (h : mkPool cfg b0 n = .ok p) : PoolWF cfg p := by
  obtain ⟨rfl, -⟩ := addBlock_ok cfg n _ p h
  apply poolWF_addBlockN
  exact ⟨rfl, List.Pairwise.nil, by simp, by simp⟩

theorem poolWF_addBlock (cfg : Config) (n : Nat) (p q : Pool) (hwf : PoolWF cfg p)
    (h : addBlock cfg n p = .ok q) : PoolWF cfg q := by
  obtain ⟨rfl, -⟩ := addBlock_ok cfg n p q h
  exact poolWF_addBlockN cfg n p hwf

theorem removeBlock_nextBase (cfg : Config) (n : Nat) (p : Pool) (r : Pool × Nat)
    (h : removeBlock cfg n p = .ok r) : r.1.nextBase = p.nextBase := by
  by_cases hn : n = 0
  · rw [hn] at h
    simp [removeBlock] at h
  · unfold removeBlock at h
    rw [if_neg hn] at h
    by_cases h0 : p.total_block = 0
    · rw [if_pos h0] at h
      cases h
      rfl
    · rw [if_neg h0] at h
      cases hbl : p.blocks with
      | nil =>
        rw [hbl] at h
        cases h
        rfl
      | cons hb tb =>
        rw [hbl] at h
        dsimp only at h
        split at h
        · cases h
          rfl
        · cases h
          rfl

theorem poolWF_removeBlock (cfg : Config) (n : Nat) (p : Pool) (r : Pool × Nat)
    (hwf : PoolWF cfg p) (h : removeBlock cfg n p = .ok r) : PoolWF cfg r.1 := by
  have hn : n ≠ 0 := by
    intro h0
    rw [h0] at h
    simp [removeBlock] at h
  have hnb := removeBlock_nextBase cfg n p r h
  obtain ⟨ht, hpw, hbn, hbw⟩ := hwf
  obtain ⟨q, k, hok, hmin, htot, hlen, hsub, hfil⟩ :=
    removeBlock_core cfg n p (Nat.pos_of_ne_zero hn) ht
  rw [hok] at h
  have hrq : r = (q, k) := by
    cases h
    rfl
  subst hrq
  have hcle : List.countP (fun b => decide (b.used = 0)) p.blocks ≤ p.blocks.length :=
    List.countP_le_length _
  refine ⟨?_, hpw.sublist hsub, ?_, ?_⟩
  · show q.total_block = q.blocks.length
    omega
  · intro b hb
    rw [show (q, k).1.nextBase = p.nextBase from hnb]
    exact hbn b (hsub.subset hb)
  · intro b hb
    exact hbw b (hsub.subset hb)

theorem poolWF_resize (cfg : Config) (n : Nat) (p : Pool) (r : Pool × Nat)
    (hwf : PoolWF cfg p) (h : resize cfg n p = .ok r) : PoolWF cfg r.1 := by
  unfold resize at h
  by_cases h1 : n = p.total_block
  · rw [if_pos h1] at h
    cases h
    exact hwf
  · rw [if_neg h1] at h
    by_cases h2 : p.total_block < n
    · rw [if_pos h2] at h
      cases ha : addBlock cfg (n - p.total_block) p with
      | ok q =>
        rw [ha] at h
        cases h
        exact poolWF_addBlock cfg _ p q hwf ha
      | error e =>
        rw [ha] at h
        cases h
    · rw [if_neg h2] at h
      cases hr : removeBlock cfg (p.total_block - n) p with
      | ok s =>
        rw [hr] at h
        cases h
        exact poolWF_removeBlock cfg _ p s hwf hr
      | error e =>
        rw [hr] at h
        cases h

theorem poolWF_get (cfg : Config) (hOK : cfg.OK) (p : Pool) (hwf : PoolWF cfg p) :
    PoolWF cfg (get cfg p).1 := by
  have hCap : 0 < cfg.Cap := hOK.1
  have hq : PoolWF cfg (if p.blocks.isEmpty then addBlockN cfg 1 p else p) := by
    split
    · exact poolWF_addBlockN cfg 1 p hwf
    · exact hwf
  unfold get
  dsimp only
  generalize hP : (if p.blocks.isEmpty then addBlockN cfg 1 p else p) = p0 at hq ⊢
  cases hf : List.findIdx? (fun b => b.used != cfg.Cap) p0.blocks with
  | some j =>
    dsimp only
    obtain ⟨hjlt, hfidx⟩ := List.findIdx?_eq_some_iff_findIdx_eq.mp hf
    have hpred : ((p0.blocks[j]).used != cfg.Cap) = true := by
      have hw : List.findIdx (fun b => b.used != cfg.Cap) p0.blocks < p0.blocks.length := by
        rw [hfidx]
        exact hjlt
      have := @List.findIdx_getElem _ (fun b => b.used != cfg.Cap) p0.blocks hw
      simpa [hfidx] using this
    have hbeq : p0.blocks.getD j (newBlock cfg 0) = p0.blocks[j] := by
      rw [List.getD_eq_getElem?_getD, List.getElem?_eq_getElem hjlt]
      rfl
    have hbwf : BlockWF cfg (p0.blocks[j]) :=
      hq.2.2.2 _ (List.getElem_mem hjlt)
    have hune : (p0.blocks[j]).used ≠ cfg.Cap := by simpa using hpred
    obtain ⟨hpop, hbase, -, -, -⟩ := blockWF_pop cfg _ hbwf hune
    rw [hbeq]
    exact poolWF_set_block cfg p0 j _ _ hq (List.getElem?_eq_getElem hjlt) hbase hpop
  | none =>
    dsimp only
    have hq1 : PoolWF cfg (addBlockN cfg 1 p0) := poolWF_addBlockN cfg 1 p0 hq
    obtain ⟨fr, hfr, hfrlen, hfrmem⟩ := addBlocksAux_shape cfg 1 p0.blocks p0.nextBase
    obtain ⟨x, hx⟩ : ∃ x, fr = [x] := by
      cases fr with
      | nil => simp at hfrlen
      | cons y ys =>
        cases ys with
        | nil => exact ⟨y, rfl⟩
        | cons z zs => simp at hfrlen
    obtain ⟨a, ha⟩ := hfrmem x (by simp [hx])
    have hblocks1 : (addBlockN cfg 1 p0).blocks = x :: p0.blocks := by
      rw [show (addBlockN cfg 1 p0).blocks =
        (addBlocksAux cfg 1 p0.blocks p0.nextBase).1 from rfl, hfr, hx]
      rfl
    rw [hblocks1]
    dsimp only
    have hxwf : BlockWF cfg x := by
      subst ha
      exact blockWF_newBlock cfg a
    have hxe : x.used ≠ cfg.Cap := by
      subst ha
      rw [show (newBlock cfg a).used = 0 from rfl]
      omega
    obtain ⟨hpop, hbase, -, -, -⟩ := blockWF_pop cfg x hxwf hxe
    have hset : (popSlot cfg x).1 :: p0.blocks =
        (addBlockN cfg 1 p0).blocks.set 0 (popSlot cfg x).1 := by
      rw [hblocks1]
      rfl
    have hj0 : (addBlockN cfg 1 p0).blocks[0]? = some x := by
      rw [hblocks1]
      simp
    have hres := poolWF_set_block cfg (addBlockN cfg 1 p0) 0 x _ hq1 hj0 hbase hpop
    rw [← hset] at hres
    exact hres

theorem earlier_not_in_range (cfg : Config) (hOK : cfg.OK) (p : Pool)
    (hwf : PoolWF cfg p) (j : Nat) (b : MemoryBlock) (i : Nat)
    (hj : p.blocks[j]? = some b) (hi : i < cfg.Cap) :
    ∀ k, k < j → ∀ c, p.blocks[k]? = some c →
      codeInRange cfg c (slotAddr cfg b i) = false := by
  intro k hk c hc
  obtain ⟨hklt, hkeq⟩ := List.getElem?_eq_some.mp hc
  obtain ⟨hjlt, hjeq⟩ := List.getElem?_eq_some.mp hj
  have hrel2 := (List.pairwise_iff_getElem.mp hwf.2.1) k j hklt hjlt hk
  rw [hkeq, hjeq] at hrel2
  have hlt := slotAddr_lt_end cfg hOK b i hi
  have hnlt : ¬ (c.base < slotAddr cfg b i) := by omega
  simp [codeInRange, hnlt]

theorem poolWF_release (cfg : Config) (hOK : cfg.OK) (p : Pool) (hptr : Nat)
    (q : Pool) (hwf : PoolWF cfg p) (hlive : LiveHandle cfg p hptr)
    (hrel : release cfg hptr p = .ok q) : PoolWF cfg q := by
  obtain ⟨j, b, i, hj, hi, hocc, rfl⟩ := hlive
  have hbmem : b ∈ p.blocks := mem_of_getElem_opt _ _ _ hj
  have hbwf : BlockWF cfg b := hwf.2.2.2 b hbmem
  have hlen : i < b.units.length := by
    rw [hbwf.1]
    exact hi
  have hupos : 0 < b.used := BlockWF.used_pos cfg b hbwf i hi hocc
  have heff := (release_core cfg hOK p (slotAddr cfg b i)).2
    j b i hj hi hlen hupos (earlier_not_in_range cfg hOK p hwf j b i hj hi)
  rw [heff.1] at hrel
  have hq : q = ⟨p.blocks.set j (relUpd cfg b i), p.total_block, p.nextBase⟩ := by
    cases hrel
    rfl
  subst hq
  obtain ⟨hrwf, hrbase, -⟩ := blockWF_relUpd cfg b hbwf i hi hocc
  exact poolWF_set_block cfg p j b _ hwf hj hrbase hrwf

theorem reach_wf (cfg : Config) (hOK : cfg.OK) (p : Pool) (h : Reach cfg p) :
    PoolWF cfg p := by
  induction h with
  | init b0 n q hq => exact poolWF_mkPool cfg b0 n q hq
  | addB pp n q hp hq ih => exact poolWF_addBlock cfg n pp q ih hq
  | remB pp n r hp hq ih => exact poolWF_removeBlock cfg n pp r ih hq
  | reszB pp n r hp hq ih => exact poolWF_resize cfg n pp r ih hq
  | getS pp hp ih => exact poolWF_get cfg hOK pp ih
  | relS pp hh q hp hlive hrel ih => exact poolWF_release cfg hOK pp hh q ih hlive hrel

/-- C3: in every pool state reachable by the operations (`addBlock`,
`removeBlock`, `resize`, `get`, `release` — with their preconditions met,
in particular `release` only on live handles), every block's free list
reachable from `first_free` by following slot link fields contains exactly
`Capacity - used` distinct slot indices, all within bounds, none of which
hold a live object. -/
theorem free_list_invariant (cfg : Config) (hOK : cfg.OK) (p : Pool)
    (hR : Reach cfg p) :
    ∀ b ∈ p.blocks,
      (freeList cfg b).length = cfg.Cap - b.used ∧ b.used ≤ cfg.Cap ∧
      (freeList cfg b).Nodup ∧ (∀ i ∈ freeList cfg b, i < cfg.Cap) ∧
      (∀ i ∈ freeList cfg b, (b.units.getD i ⟨0, false⟩).occupied = false) := by
  intro b hb
  obtain ⟨hlen, fl, hch, hnd, hlfl, hunocc⟩ := (reach_wf cfg hOK p hR).2.2.2 b hb
  have hle : fl.length ≤ cfg.Cap := by omega
  have hfl : freeList cfg b = fl :=
    freeListGo_eq_of_chain cfg b.units fl b.first hch cfg.Cap hle
  rw [hfl]
  exact ⟨by omega, by omega, hnd, IsChain.mem_lt cfg b.units b.first fl hch, hunocc⟩

/-- C7: for every handle returned by `get` and still live — the address of
slot `i` of block `b` sitting at position `j`, with the slot occupied —
calling `release` on it succeeds, placing `i` at the head of that block's
free list; a subsequent `get` that selects that block (it being the first
block from the head with `used < Capacity`, i.e. `findIdx?` returns `j`)
constructs the new object in that same slot and returns a handle equal to
the original one. -/
theorem release_then_reuse (cfg : Config) (hOK : cfg.OK) (p : Pool)
    (hR : Reach cfg p) (j : Nat) (b : MemoryBlock) (i : Nat)
    (hj : p.blocks[j]? = some b) (hi : i < cfg.Cap)
    (hocc : (b.units.getD i ⟨0, false⟩).occupied = true) :
    ∃ q, release cfg (slotAddr cfg b i) p = .ok q ∧
      q.blocks[j]? = some (relUpd cfg b i) ∧ (relUpd cfg b i).first = i ∧
      (List.findIdx? (fun c => c.used != cfg.Cap) q.blocks = some j →
        (get cfg q).2 = slotAddr cfg b i) := by
  have hwf := reach_wf cfg hOK p hR
  have hbwf : BlockWF cfg b := hwf.2.2.2 b (mem_of_getElem_opt _ _ _ hj)
  have hlen : i < b.units.length := by
    rw [hbwf.1]
    exact hi
  have hupos : 0 < b.used := BlockWF.used_pos cfg b hbwf i hi hocc
  have heff := (release_core cfg hOK p (slotAddr cfg b i)).2
    j b i hj hi hlen hupos (earlier_not_in_range cfg hOK p hwf j b i hj hi)
  obtain ⟨hjlt, -⟩ := List.getElem?_eq_some.mp hj
  refine ⟨⟨p.blocks.set j (relUpd cfg b i), p.total_block, p.nextBase⟩,
    heff.1, ?_, rfl, ?_⟩
  · show (p.blocks.set j (relUpd cfg b i))[j]? = some (relUpd cfg b i)
    exact List.getElem?_set_eq_of_lt _ hjlt
  · intro hfind
    have hne : (p.blocks.set j (relUpd cfg b i)) ≠ [] := by
      intro hnil
      have hls : (p.blocks.set j (relUpd cfg b i)).length = p.blocks.length :=
        List.length_set _ _ _
      rw [hnil] at hls
      simp at hls
      omega
    rw [get_eq_of_findIdx cfg _ j hne hfind]
    have hgd : (p.blocks.set j (relUpd cfg b i)).getD j (newBlock cfg 0) =
        relUpd cfg b i := by
      rw [List.getD_eq_getElem?_getD, List.getElem?_set_eq_of_lt _ hjlt]
      rfl
    show (popSlot cfg ((⟨p.blocks.set j (relUpd cfg b i), p.total_block,
      p.nextBase⟩ : Pool).blocks.getD j (newBlock cfg 0))).2 = slotAddr cfg b i
    rw [show (⟨p.blocks.set j (relUpd cfg b i), p.total_block, p.nextBase⟩ :
      Pool).blocks = p.blocks.set j (relUpd cfg b i) from rfl, hgd]
    rfl

theorem release_then_reuse_witness :
    ∃ q, release cfgW (slotAddr cfgW bW 0) pW = .ok q ∧
      q.blocks[0]? = some (relUpd cfgW bW 0) ∧ (relUpd cfgW bW 0).first = 0 ∧
      (List.findIdx? (fun c => c.used != cfgW.Cap) q.blocks = some 0 →
        (get cfgW q).2 = slotAddr cfgW bW 0) :=
  release_then_reuse cfgW (by decide) pW
    (Reach.getS (freshPool cfgW 100) (Reach.init 100 1 (freshPool cfgW 100) rfl))
    0 bW 0 (by decide) (by decide) (by decide)

theorem free_list_invariant_witness :
    (freeList cfgW bW).length = cfgW.Cap - bW.used ∧ bW.used ≤ cfgW.Cap ∧
    (freeList cfgW bW).Nodup ∧ (∀ i ∈ freeList cfgW bW, i < cfgW.Cap) ∧
    (∀ i ∈ freeList cfgW bW, (bW.units.getD i ⟨0, false⟩).occupied = false) :=
  free_list_invariant cfgW (by decide) pW
    (Reach.getS (freshPool cfgW 100) (Reach.init 100 1 (freshPool cfgW 100) rfl))
    bW (by decide)

end ObjectPool
